import Mathlib

/-!
Verification of the request-orchestration core of the VoiceCloner API server
(`api_server.py`): the text segmenter `chunk_text`, the voice-profile
registry manipulated by the `clone_voice` / `list_voices` / `delete_voice`
handlers, and the multi-chunk synthesis pipeline of `generate_speech`.

Texts are embedded as `List Char`.  Audio waveforms are embedded as
`List ℚ` (the claims under study concern which samples appear and in which
order, never floating-point rounding).  The registry (a Python dict keyed
by voice name, insertion ordered) is embedded as an association list.
-/

namespace VC

/-- ASCII whitespace recognised by Python's `str.strip()` (the unicode
whitespace code points play no role in the texts under study). -/
def isWS (c : Char) : Bool :=
  c == ' ' || c == '\t' || c == '\n' || c == '\r' || c == '\x0b' || c == '\x0c'

/-- Python `str.strip()`: drop leading and trailing whitespace. -/
def pyStrip (l : List Char) : List Char :=
  ((l.dropWhile isWS).reverse.dropWhile isWS).reverse

/-- Python `str.split('.')`: split on every occurrence of `'.'`, keeping
empty pieces (so a text with `n` dots yields `n + 1` pieces). -/
def splitDot : List Char → List (List Char)
  | [] => [[]]
  | c :: t =>
    let r := splitDot t
    if c = '.' then [] :: r else (c :: r.headD []) :: r.tail

/-- `text.replace('!', '.').replace('?', '.')` from `chunk_text`. -/
def normalizePunct (text : List Char) : List Char :=
  (text.map (fun c => if c = '!' then '.' else c)).map
    (fun c => if c = '?' then '.' else c)

/-- The sentence loop of `chunk_text` (api_server.py lines 177–192):
greedily accumulate stripped non-empty sentences into `current`, appending
`". "` after each; when the next sentence would overflow `maxChars`, emit
the stripped `current` and restart from that sentence; finally emit the
stripped `current` if non-empty. -/
def chunkLoop (maxChars : Nat) : List (List Char) → List Char → List (List Char) → List (List Char)
  | [], current, chunks =>
      if current = [] then chunks else chunks ++ [pyStrip current]
  | s :: rest, current, chunks =>
      let s1 := pyStrip s
      if s1 = [] then chunkLoop maxChars rest current chunks
      else if current.length + s1.length + 2 ≤ maxChars then
        chunkLoop maxChars rest (current ++ s1 ++ ['.', ' ']) chunks
      else if current = [] then
        chunkLoop maxChars rest (s1 ++ ['.', ' ']) chunks
      else
        chunkLoop maxChars rest (s1 ++ ['.', ' ']) (chunks ++ [pyStrip current])

/-- `chunk_text` (api_server.py lines 167–194); the final line
`return chunks if chunks else [text]` is the second branch. -/
def chunk_text (text : List Char) (maxChars : Nat) : List (List Char) :=
  if text.length ≤ maxChars then [text]
  else if chunkLoop maxChars (splitDot (normalizePunct text)) [] [] = [] then [text]
  else chunkLoop maxChars (splitDot (normalizePunct text)) [] []

/-- The candidate sentences of a text: what `chunk_text` splits on the
splitting path, before stripping. -/
def sentencePieces (text : List Char) : List (List Char) :=
  splitDot (normalizePunct text)

/-- The stripped non-whitespace sentences of a list of candidate pieces,
in order (the pieces `chunk_text` actually keeps). -/
def cleanPieces (pieces : List (List Char)) : List (List Char) :=
  (pieces.map pyStrip).filter (fun s => !s.isEmpty)

/-- The stripped non-whitespace sentences of a text, delimited by
`'.'`, `'!'`, `'?'`, in order. -/
def cleanOf (text : List Char) : List (List Char) :=
  cleanPieces (sentencePieces text)

/-- The sentences recoverable from a list of chunks, in order. -/
def chunksClean : List (List Char) → List (List Char)
  | [] => []
  | c :: L => cleanOf c ++ chunksClean L

/-- The text accumulated in `current` after the sentences `cs` have been
greedily appended: each followed by the synthetic `". "` separator. -/
def joinSep : List (List Char) → List Char
  | [] => []
  | s :: cs => s ++ '.' :: ' ' :: joinSep cs

/-- The chunk emitted for an accumulated sentence list: `current` with its
final space stripped. -/
def chunkOf (cs : List (List Char)) : List Char :=
  (joinSep cs).dropLast

/-- A well-formed sentence as accumulated by the loop: non-empty, already
stripped, free of the three delimiter characters, and satisfying an extra
bookkeeping predicate `A` (instantiated with membership in the text's
candidate sentences). -/
def GOOD (A : List Char → Prop) (s : List Char) : Prop :=
  s ≠ [] ∧ pyStrip s = s ∧ '.' ∉ s ∧ '!' ∉ s ∧ '?' ∉ s ∧ A s

/-- Sentence recovery from raw (already `!`/`?`-free) text. -/
def cleanRaw (r : List Char) : List (List Char) :=
  cleanPieces (splitDot r)

/-- Membership in the text's candidate sentences, as recorded for each
sentence the loop accumulates. -/
def FromText (text : List Char) (s : List Char) : Prop :=
  ∃ p ∈ sentencePieces text, pyStrip p = s

/-- A stored voice profile (the dict built at api_server.py lines 148–154). -/
structure VoiceProfile where
  id : String
  file : String
  codes_file : String
  reference_text : Option String
  original_filename : String
deriving DecidableEq, Repr

/-- The in-memory `voice_profiles` dict: an insertion-ordered map from
voice name to profile. -/
def Registry := List (String × VoiceProfile)

instance : DecidableEq Registry := by
  unfold Registry
  infer_instance

/-- Python dict write `voice_profiles[name] = p`: replace in place if the
key is present, append otherwise. -/
def setProfile : Registry → String → VoiceProfile → Registry
  | [], name, p => [(name, p)]
  | (n, q) :: rest, name, p =>
      if n = name then (name, p) :: rest else (n, q) :: setProfile rest name p

/-- Python dict lookup `voice_profiles[name]` guarded by `name in voice_profiles`. -/
def getProfile : Registry → String → Option VoiceProfile
  | [], _ => none
  | (n, q) :: rest, name => if n = name then some q else getProfile rest name

/-- Python `del voice_profiles[name]`. -/
def eraseProfile : Registry → String → Registry
  | [], _ => []
  | (n, q) :: rest, name => if n = name then rest else (n, q) :: eraseProfile rest name

instance instDecEqExcept {ε α : Type} [DecidableEq ε] [DecidableEq α] :
    DecidableEq (Except ε α) := fun a b =>
  match a, b with
  | Except.error e, Except.error f =>
      if h : e = f then isTrue (by rw [h]) else isFalse (by intro hc; cases hc; exact h rfl)
  | Except.error _, Except.ok _ => isFalse (by intro hc; cases hc)
  | Except.ok _, Except.error _ => isFalse (by intro hc; cases hc)
  | Except.ok x, Except.ok y =>
      if h : x = y then isTrue (by rw [h]) else isFalse (by intro hc; cases hc; exact h rfl)

/-- An HTTP error response, as raised via `HTTPException(status, detail)`. -/
structure HTTPError where
  status : Nat
  detail : String
deriving DecidableEq, Repr

/-- Starlette's `str(HTTPException)`: `f"{status_code}: {detail}"`. -/
def strOfError (e : HTTPError) : String :=
  toString e.status ++ ": " ++ e.detail

/-- The extension check at api_server.py line 111:
`file.filename.lower().endswith(('.wav', '.mp3', '.flac', '.ogg', '.webm'))`. -/
def audioExtOk (filename : String) : Bool :=
  let low := filename.toList.map Char.toLower
  List.isSuffixOf ".wav".toList low || List.isSuffixOf ".mp3".toList low ||
    List.isSuffixOf ".flac".toList low || List.isSuffixOf ".ogg".toList low ||
    List.isSuffixOf ".webm".toList low

def unsupportedMsg : String :=
  "Only audio files are supported (wav, mp3, flac, ogg, webm)"

/-- `np.max(np.abs(audio))` over the decoded samples (0 on empty input). -/
def peakAmplitude (audio : List ℚ) : ℚ :=
  audio.foldl (fun acc x => max acc |x|) 0

/-- The peak normalization at api_server.py line 128:
`audio = audio / np.max(np.abs(audio))` — performed unconditionally, with
no guard against a zero peak. -/
def normalizeAudio (audio : List ℚ) : List ℚ :=
  audio.map (fun x => x / peakAmplitude audio)

/-- The body of the `try` block of `clone_voice` (api_server.py
lines 110–162), with the external decode and reference-encoding calls
assumed successful: validate the extension, peak-normalize the decoded
waveform, store the profile.  Returns the updated registry and the
normalized waveform written to disk. -/
def clone_voice_body (reg : Registry) (filename voiceName : String)
    (referenceText : Option String) (audio : List ℚ) (voiceId : String) :
    Except HTTPError (Registry × List ℚ) :=
  if audioExtOk filename then
    let normalized := normalizeAudio audio
    let profile : VoiceProfile :=
      { id := voiceId
        file := "/app/voices/" ++ voiceId ++ ".wav"
        codes_file := "/app/voices/" ++ voiceId ++ "_codes.pt"
        reference_text := referenceText
        original_filename := filename }
    Except.ok (setProfile reg voiceName profile, normalized)
  else
    Except.error { status := 400, detail := unsupportedMsg }

/-- The `clone_voice` handler: its catch-all `except Exception` clause
(api_server.py lines 164–165) intercepts every exception raised in the
body — including the handler's own `HTTPException(400, ...)` — and
re-raises it as `HTTPException(500, f"Error cloning voice: {str(e)}")`. -/
def clone_voice (reg : Registry) (filename voiceName : String)
    (referenceText : Option String) (audio : List ℚ) (voiceId : String) :
    Except HTTPError (Registry × List ℚ) :=
  match clone_voice_body reg filename voiceName referenceText audio voiceId with
  | Except.error e =>
      Except.error { status := 500, detail := "Error cloning voice: " ++ strOfError e }
  | Except.ok r => Except.ok r

/-- One row of the `list_voices` response (api_server.py lines 266–271). -/
structure VoiceSummary where
  name : String
  id : String
  original_file : String
  has_reference_text : Bool
deriving DecidableEq, Repr

/-- The `list_voices` handler (api_server.py lines 261–274). -/
def list_voices (reg : Registry) : List VoiceSummary :=
  reg.map (fun e =>
    { name := e.1
      id := e.2.id
      original_file := e.2.original_filename
      has_reference_text := e.2.reference_text.isSome })

/-- The `delete_voice` handler (api_server.py lines 276–296); file
removal failures are swallowed, so only the registry effect is modelled. -/
def delete_voice (reg : Registry) (voiceName : String) : Except HTTPError Registry :=
  match getProfile reg voiceName with
  | none =>
      Except.error
        { status := 404, detail := "Voice \x27" ++ voiceName ++ "\x27 not found" }
  | some _ => Except.ok (eraseProfile reg voiceName)

/-- The per-chunk inference loop of `generate_speech` (api_server.py
lines 230–233): call the engine on each chunk in order, aborting at the
first failure.  `infer` is the external `tts.infer` call with the
profile's reference codes and text already applied. -/
def inferAll (infer : List Char → Except String (List ℚ)) :
    List (List Char) → Except String (List (List ℚ))
  | [] => Except.ok []
  | c :: rest =>
    match infer c with
    | Except.error m => Except.error m
    | Except.ok w =>
      match inferAll infer rest with
      | Except.error m => Except.error m
      | Except.ok ws => Except.ok (w :: ws)

/-- The concatenation step (api_server.py lines 236–239):
`np.concatenate(audio_segments)` when more than one segment, else
`audio_segments[0]`. -/
def concatSegments (segs : List (List ℚ)) : List ℚ :=
  if 1 < segs.length then segs.flatten else segs.headD []

/-- The `generate_speech` handler (api_server.py lines 196–259), with the
engine abstracted as `infer : VoiceProfile → chunk → waveform or failure`.
The handler re-raises its own `HTTPException` (404) unchanged and wraps
any other failure — in particular an engine failure — as
`HTTPException(500, f"Error generating speech: {str(e)}")`. -/
def generate_speech (infer : VoiceProfile → List Char → Except String (List ℚ))
    (reg : Registry) (text : List Char) (voiceName : String) :
    Except HTTPError (List ℚ) :=
  match getProfile reg voiceName with
  | none =>
      Except.error
        { status := 404
          detail := "Voice \x27" ++ voiceName ++ "\x27 not found. Available voices: " ++
            toString (reg.map Prod.fst) }
  | some p =>
    match inferAll (infer p) (chunk_text text 200) with
    | Except.error m =>
        Except.error { status := 500, detail := "Error generating speech: " ++ m }
    | Except.ok segs => Except.ok (concatSegments segs)

/-- The registry states reachable from the empty registry by the clone and
delete operations. -/
inductive Reachable : Registry → Prop where
  | init : Reachable []
  | clone {r : Registry} {fn vn : String} {rt : Option String} {a : List ℚ}
      {vid : String} {r2 : Registry} {norm : List ℚ} :
      Reachable r → clone_voice r fn vn rt a vid = Except.ok (r2, norm) → Reachable r2
  | delete {r : Registry} {vn : String} {r2 : Registry} :
      Reachable r → delete_voice r vn = Except.ok r2 → Reachable r2

/-- A concrete stored profile, as `clone_voice` builds it, for use in the
witnesses. -/
def demoProfile (vid fname : String) : VoiceProfile where
  id := vid
  file := "/app/voices/" ++ vid ++ ".wav"
  codes_file := "/app/voices/" ++ vid ++ "_codes.pt"
  reference_text := none
  original_filename := fname

/-- A 303-character text yielding exactly two chunks under the fixed
bound 200 used by `generate_speech`. -/
def twoChunkText : List Char :=
  List.replicate 150 'a' ++ '.' :: ' ' :: List.replicate 150 'b' ++ ['.']

/-! ### Lemmas about `pyStrip` -/

theorem dropWhile_idem (p : Char → Bool) (l : List Char) :
    (l.dropWhile p).dropWhile p = l.dropWhile p := by
  induction l with
  | nil => rfl
  | cons a t ih =>
    rw [List.dropWhile_cons]
    split
    · exact ih
    · rw [List.dropWhile_cons]
      simp_all

theorem head_dropWhile_false (p : Char → Bool) :
    ∀ (l : List Char) (a : Char) (t : List Char), l.dropWhile p = a :: t → p a = false := by
  intro l
  induction l with
  | nil => intro a t h; cases h
  | cons c s ih =>
    intro a t h
    rw [List.dropWhile_cons] at h
    split at h
    · exact ih a t h
    · cases h
      simp_all

theorem dropWhile_eq_self_of_head (p : Char → Bool) (a : Char) (t : List Char)
    (h : p a = false) : (a :: t).dropWhile p = a :: t := by
  rw [List.dropWhile_cons, if_neg]
  simp [h]

theorem dropWhile_self_head (p : Char → Bool) (a : Char) (t : List Char)
    (h : (a :: t).dropWhile p = a :: t) : p a = false := by
  by_cases hp : p a = true
  · rw [List.dropWhile_cons, if_pos hp] at h
    have hle := (List.dropWhile_suffix (l := t) p).length_le
    rw [h] at hle
    simp at hle
  · simpa using hp

theorem pyStrip_dropWhile (l : List Char) : (pyStrip l).dropWhile isWS = pyStrip l := by
  unfold pyStrip
  rcases hv : (l.dropWhile isWS).reverse.dropWhile isWS with _ | ⟨b, v2⟩
  · simp
  · -- the last element of the kept part is the head of `l.dropWhile isWS`,
    -- which is not whitespace
    have hsuff : b :: v2 <:+ (l.dropWhile isWS).reverse := by
      rw [← hv]; exact List.dropWhile_suffix isWS
    obtain ⟨w, hw⟩ := hsuff
    have hrevne : (l.dropWhile isWS).reverse ≠ [] := by
      rw [← hw]; simp
    have hune : l.dropWhile isWS ≠ [] := by
      intro hc; rw [hc] at hrevne; simp at hrevne
    obtain ⟨a, t, hut⟩ : ∃ a t, l.dropWhile isWS = a :: t := by
      match hm : l.dropWhile isWS, hune with
      | a :: t, _ => exact ⟨a, t, rfl⟩
    have ha : isWS a = false := head_dropWhile_false isWS l a t hut
    have hlast : (b :: v2).getLast? = some a := by
      have h1 : (w ++ b :: v2).getLast? = (b :: v2).getLast?.or w.getLast? :=
        List.getLast?_append
      have h3 : (l.dropWhile isWS).reverse.getLast? = (l.dropWhile isWS).head? := by
        have h0 := List.head?_reverse (l.dropWhile isWS).reverse
        rw [List.reverse_reverse] at h0
        exact h0.symm
      rw [hw, h3, hut] at h1
      simp only [List.head?_cons] at h1
      rcases hbl : (b :: v2).getLast? with _ | x
      · simp [List.getLast?_eq_none_iff] at hbl
      · rw [hbl] at h1
        simp only [Option.or_some] at h1
        rw [← h1]
    have hrev : (b :: v2).reverse.head? = some a := by
      rw [List.head?_reverse, hlast]
    rcases hrv : (b :: v2).reverse with _ | ⟨c, r⟩
    · rw [hrv] at hrev; cases hrev
    · rw [hrv] at hrev
      simp only [List.head?_cons, Option.some.injEq] at hrev
      exact dropWhile_eq_self_of_head isWS c r (by rw [hrev]; exact ha)

theorem pyStrip_reverse_dropWhile (l : List Char) :
    (pyStrip l).reverse.dropWhile isWS = (pyStrip l).reverse := by
  unfold pyStrip
  rw [List.reverse_reverse]
  exact dropWhile_idem isWS _

theorem pyStrip_eq_self (l : List Char) (h1 : l.dropWhile isWS = l)
    (h2 : l.reverse.dropWhile isWS = l.reverse) : pyStrip l = l := by
  unfold pyStrip
  rw [h1, h2, List.reverse_reverse]

theorem pyStrip_idem (l : List Char) : pyStrip (pyStrip l) = pyStrip l :=
  pyStrip_eq_self _ (pyStrip_dropWhile l) (pyStrip_reverse_dropWhile l)

theorem pyStrip_subset (l : List Char) : pyStrip l ⊆ l := by
  intro x hx
  unfold pyStrip at hx
  rw [List.mem_reverse] at hx
  have hx2 := (List.dropWhile_suffix isWS).subset hx
  rw [List.mem_reverse] at hx2
  exact (List.dropWhile_suffix isWS).subset hx2

theorem pyStrip_append_dot_space (q : List Char) (hq : q ≠ [])
    (hd : q.dropWhile isWS = q) : pyStrip (q ++ ['.', ' ']) = q ++ ['.'] := by
  obtain ⟨a, t, rfl⟩ : ∃ a t, q = a :: t := by
    match q, hq with
    | a :: t, _ => exact ⟨a, t, rfl⟩
  have ha : isWS a = false := dropWhile_self_head isWS a t hd
  unfold pyStrip
  rw [show a :: t ++ ['.', ' '] = a :: (t ++ ['.', ' ']) from rfl]
  rw [dropWhile_eq_self_of_head isWS a _ ha]
  rw [show a :: (t ++ ['.', ' ']) = (a :: t) ++ ['.', ' '] from rfl]
  rw [List.reverse_append]
  rw [show (['.', ' '] : List Char).reverse = [' ', '.'] from rfl]
  rw [show ([' ', '.'] : List Char) ++ (a :: t).reverse = ' ' :: ('.' :: (a :: t).reverse) from rfl]
  rw [List.dropWhile_cons, if_pos (by decide)]
  rw [dropWhile_eq_self_of_head isWS '.' _ (by decide)]
  simp

theorem pyStrip_append_dot (q : List Char) (hq : q ≠ [])
    (hd : q.dropWhile isWS = q) : pyStrip (q ++ ['.']) = q ++ ['.'] := by
  obtain ⟨a, t, rfl⟩ : ∃ a t, q = a :: t := by
    match q, hq with
    | a :: t, _ => exact ⟨a, t, rfl⟩
  have ha : isWS a = false := dropWhile_self_head isWS a t hd
  unfold pyStrip
  rw [show a :: t ++ ['.'] = a :: (t ++ ['.']) from rfl]
  rw [dropWhile_eq_self_of_head isWS a _ ha]
  rw [show a :: (t ++ ['.']) = (a :: t) ++ ['.'] from rfl]
  rw [List.reverse_append]
  rw [show (['.'] : List Char).reverse = ['.'] from rfl]
  rw [show (['.'] : List Char) ++ (a :: t).reverse = '.' :: (a :: t).reverse from rfl]
  rw [dropWhile_eq_self_of_head isWS '.' _ (by decide)]
  simp

theorem pyStrip_cons_ws (c : Char) (l : List Char) (h : isWS c = true) :
    pyStrip (c :: l) = pyStrip l := by
  unfold pyStrip
  rw [List.dropWhile_cons, if_pos h]

/-! ### Lemmas about `splitDot` and `normalizePunct` -/

theorem splitDot_cons (c : Char) (t : List Char) :
    splitDot (c :: t) =
      if c = '.' then [] :: splitDot t
      else (c :: (splitDot t).headD []) :: (splitDot t).tail := rfl

theorem splitDot_ne_nil (l : List Char) : splitDot l ≠ [] := by
  cases l with
  | nil => simp [splitDot]
  | cons c t =>
    rw [splitDot_cons]
    split <;> simp

theorem splitDot_no_dot : ∀ s : List Char, '.' ∉ s → splitDot s = [s] := by
  intro s
  induction s with
  | nil => intro _; rfl
  | cons c t ih =>
    intro h
    have hc : c ≠ '.' := fun hcc => h (by rw [hcc]; exact List.mem_cons_self _ _)
    have ht : '.' ∉ t := fun hm => h (List.mem_cons_of_mem c hm)
    rw [splitDot_cons, if_neg hc, ih ht]
    rfl

theorem splitDot_append_dot : ∀ s r : List Char, '.' ∉ s →
    splitDot (s ++ '.' :: r) = s :: splitDot r := by
  intro s
  induction s with
  | nil =>
    intro r _
    show splitDot ('.' :: r) = [] :: splitDot r
    rw [splitDot_cons, if_pos rfl]
  | cons c t ih =>
    intro r h
    have hc : c ≠ '.' := fun hcc => h (by rw [hcc]; exact List.mem_cons_self _ _)
    have ht : '.' ∉ t := fun hm => h (List.mem_cons_of_mem c hm)
    show splitDot (c :: (t ++ '.' :: r)) = (c :: t) :: splitDot r
    rw [splitDot_cons, if_neg hc, ih r ht]
    rfl

theorem splitDot_mem : ∀ l : List Char, ∀ p ∈ splitDot l, ∀ x ∈ p, x ∈ l ∧ x ≠ '.' := by
  intro l
  induction l with
  | nil =>
    intro p hp x hx
    simp [splitDot] at hp
    subst hp
    cases hx
  | cons c t ih =>
    intro p hp x hx
    rw [splitDot_cons] at hp
    by_cases hcdot : c = '.'
    · rw [if_pos hcdot] at hp
      rcases List.mem_cons.mp hp with h1 | h1
      · subst h1; cases hx
      · obtain ⟨h2, h3⟩ := ih p h1 x hx
        exact ⟨List.mem_cons_of_mem c h2, h3⟩
    · rw [if_neg hcdot] at hp
      obtain ⟨q, r, hsp⟩ : ∃ q r, splitDot t = q :: r := by
        match hm : splitDot t, splitDot_ne_nil t with
        | q :: r, _ => exact ⟨q, r, rfl⟩
      rw [hsp] at hp
      simp only [List.headD_cons, List.tail_cons] at hp
      rcases List.mem_cons.mp hp with h1 | h1
      · subst h1
        rcases List.mem_cons.mp hx with h2 | h2
        · exact ⟨by rw [h2]; exact List.mem_cons_self c t, by rw [h2]; exact hcdot⟩
        · obtain ⟨h3, h4⟩ := ih q (hsp ▸ List.mem_cons_self q r) x h2
          exact ⟨List.mem_cons_of_mem c h3, h4⟩
      · obtain ⟨h3, h4⟩ := ih p (hsp ▸ List.mem_cons_of_mem q h1) x hx
        exact ⟨List.mem_cons_of_mem c h3, h4⟩

theorem normalizePunct_no_bang (text : List Char) : '!' ∉ normalizePunct text := by
  intro h
  unfold normalizePunct at h
  rw [List.map_map, List.mem_map] at h
  obtain ⟨c, _, hc⟩ := h
  simp only [Function.comp] at hc
  by_cases h1 : c = '!'
  · rw [if_pos h1] at hc
    rw [if_neg (by decide : ('.' : Char) ≠ '?')] at hc
    exact absurd hc (by decide)
  · rw [if_neg h1] at hc
    by_cases h2 : c = '?'
    · rw [if_pos h2] at hc
      exact absurd hc (by decide)
    · rw [if_neg h2] at hc
      exact h1 hc

theorem normalizePunct_no_q (text : List Char) : '?' ∉ normalizePunct text := by
  intro h
  unfold normalizePunct at h
  rw [List.mem_map] at h
  obtain ⟨b, _, hb⟩ := h
  by_cases h1 : b = '?'
  · rw [if_pos h1] at hb
    exact absurd hb (by decide)
  · rw [if_neg h1] at hb
    exact h1 hb

theorem normalizePunct_eq_self : ∀ l : List Char, '!' ∉ l → '?' ∉ l →
    normalizePunct l = l := by
  intro l
  induction l with
  | nil => intro _ _; rfl
  | cons c t ih =>
    intro h1 h2
    have hc1 : c ≠ '!' := fun hc => h1 (by rw [hc]; exact List.mem_cons_self _ _)
    have hc2 : c ≠ '?' := fun hc => h2 (by rw [hc]; exact List.mem_cons_self _ _)
    have ht := ih (fun hm => h1 (List.mem_cons_of_mem c hm))
      (fun hm => h2 (List.mem_cons_of_mem c hm))
    show normalizePunct (c :: t) = c :: t
    unfold normalizePunct at ht ⊢
    simp only [List.map_cons]
    rw [if_neg hc1, if_neg hc2, ht]

/-! ### The accumulated-sentence view of the greedy loop -/

theorem stripped_dropWhile (s : List Char) (h : pyStrip s = s) :
    s.dropWhile isWS = s := by
  have h2 := pyStrip_dropWhile s
  rwa [h] at h2

theorem joinSep_ne_nil (cs : List (List Char)) (h : cs ≠ []) : joinSep cs ≠ [] := by
  match cs, h with
  | s :: cs2, _ =>
    show s ++ '.' :: ' ' :: joinSep cs2 ≠ []
    simp

theorem joinSep_eq_nil_iff (cs : List (List Char)) : joinSep cs = [] ↔ cs = [] := by
  constructor
  · intro h
    by_contra hne
    exact joinSep_ne_nil cs hne h
  · intro h; rw [h]; rfl

theorem joinSep_snoc (cs : List (List Char)) (s : List Char) :
    joinSep (cs ++ [s]) = joinSep cs ++ s ++ ['.', ' '] := by
  induction cs with
  | nil => rfl
  | cons d ds ih =>
    show d ++ '.' :: ' ' :: joinSep (ds ++ [s]) = (d ++ '.' :: ' ' :: joinSep ds) ++ s ++ ['.', ' ']
    rw [ih]
    simp

theorem joinSep_mem (cs : List (List Char)) :
    ∀ x ∈ joinSep cs, (∃ s ∈ cs, x ∈ s) ∨ x = '.' ∨ x = ' ' := by
  induction cs with
  | nil => intro x hx; cases hx
  | cons s ds ih =>
    intro x hx
    have hx0 : x ∈ s ++ '.' :: ' ' :: joinSep ds := hx
    rcases List.mem_append.mp hx0 with h | h
    · exact Or.inl ⟨s, List.mem_cons_self s ds, h⟩
    · rcases List.mem_cons.mp h with h2 | h2
      · exact Or.inr (Or.inl h2)
      · rcases List.mem_cons.mp h2 with h3 | h3
        · exact Or.inr (Or.inr h3)
        · rcases ih x h3 with ⟨t, ht, hxt⟩ | h4
          · exact Or.inl ⟨t, List.mem_cons_of_mem s ht, hxt⟩
          · exact Or.inr h4

/-- The greedy accumulator `current`, viewed as a sentence list, presents a
head-stripped text ending in `". "`. -/
theorem joinSep_form (A : List Char → Prop) :
    ∀ (cs : List (List Char)) (s : List Char), GOOD A s → (∀ x ∈ cs, GOOD A x) →
    ∃ q, q ≠ [] ∧ q.dropWhile isWS = q ∧ joinSep (s :: cs) = q ++ ['.', ' '] := by
  intro cs
  induction cs with
  | nil =>
    intro s hs _
    refine ⟨s, hs.1, stripped_dropWhile s hs.2.1, ?_⟩
    rfl
  | cons s2 ds ih =>
    intro s hs hall
    obtain ⟨q2, hq2ne, hq2drop, hq2eq⟩ :=
      ih s2 (hall s2 (List.mem_cons_self s2 ds))
        (fun x hx => hall x (List.mem_cons_of_mem s2 hx))
    obtain ⟨a, t, rfl⟩ : ∃ a t, s = a :: t := by
      match s, hs.1 with
      | a :: t, _ => exact ⟨a, t, rfl⟩
    have ha : isWS a = false := dropWhile_self_head isWS a t (stripped_dropWhile _ hs.2.1)
    refine ⟨(a :: t) ++ '.' :: ' ' :: q2, by simp, ?_, ?_⟩
    · exact dropWhile_eq_self_of_head isWS a _ ha
    · show (a :: t) ++ '.' :: ' ' :: joinSep (s2 :: ds) = ((a :: t) ++ '.' :: ' ' :: q2) ++ ['.', ' ']
      rw [hq2eq]
      simp

/-- Stripping the accumulator removes exactly its final space, and the
resulting chunk is a head-stripped text ending in `'.'`. -/
theorem pyStrip_joinSep (A : List Char → Prop) (cs : List (List Char)) (h : cs ≠ [])
    (hall : ∀ x ∈ cs, GOOD A x) :
    pyStrip (joinSep cs) = chunkOf cs ∧
      ∃ q, q ≠ [] ∧ q.dropWhile isWS = q ∧ chunkOf cs = q ++ ['.'] ∧
        (joinSep cs).length = q.length + 2 := by
  obtain ⟨s, ds, rfl⟩ : ∃ s ds, cs = s :: ds := by
    match cs, h with
    | s :: ds, _ => exact ⟨s, ds, rfl⟩
  obtain ⟨q, hqne, hqdrop, hqeq⟩ :=
    joinSep_form A ds s (hall s (List.mem_cons_self s ds))
      (fun x hx => hall x (List.mem_cons_of_mem s hx))
  have hchunk : chunkOf (s :: ds) = q ++ ['.'] := by
    unfold chunkOf
    rw [hqeq]
    rw [show q ++ ['.', ' '] = (q ++ ['.']) ++ [' '] by simp]
    exact List.dropLast_concat
  refine ⟨?_, q, hqne, hqdrop, hchunk, by rw [hqeq]; simp⟩
  rw [hqeq, hchunk]
  exact pyStrip_append_dot_space q hqne hqdrop

theorem cleanPieces_cons (p : List Char) (ps : List (List Char)) :
    cleanPieces (p :: ps) =
      if (pyStrip p).isEmpty = true then cleanPieces ps
      else pyStrip p :: cleanPieces ps := by
  unfold cleanPieces
  rw [List.map_cons, List.filter_cons]
  by_cases h : (pyStrip p).isEmpty = true
  · rw [if_neg (by simp [h]), if_pos h]
  · rw [if_pos (by simp at h ⊢; exact h), if_neg h]

theorem cleanRaw_append_dot (s r : List Char) (h : '.' ∉ s) :
    cleanRaw (s ++ '.' :: r) =
      (if (pyStrip s).isEmpty = true then [] else [pyStrip s]) ++ cleanRaw r := by
  unfold cleanRaw
  rw [splitDot_append_dot s r h, cleanPieces_cons]
  by_cases he : (pyStrip s).isEmpty = true
  · rw [if_pos he, if_pos he]; rfl
  · rw [if_neg he, if_neg he]; rfl

theorem cleanRaw_cons_ws (c : Char) (r : List Char) (h : isWS c = true) :
    cleanRaw (c :: r) = cleanRaw r := by
  have hc : c ≠ '.' := by
    intro hcc
    rw [hcc] at h
    exact absurd h (by decide)
  unfold cleanRaw
  rw [splitDot_cons, if_neg hc]
  obtain ⟨q, t, hsp⟩ : ∃ q t, splitDot r = q :: t := by
    match hm : splitDot r, splitDot_ne_nil r with
    | q :: t, _ => exact ⟨q, t, rfl⟩
  rw [hsp]
  simp only [List.headD_cons, List.tail_cons]
  rw [cleanPieces_cons, cleanPieces_cons, pyStrip_cons_ws c q h]

theorem cleanRaw_nil : cleanRaw [] = [] := rfl

/-- Recovering the sentences of an emitted chunk gives back exactly the
accumulated sentence list. -/
theorem cleanRaw_chunkOf (A : List Char → Prop) :
    ∀ cs : List (List Char), cs ≠ [] → (∀ x ∈ cs, GOOD A x) →
    cleanRaw (chunkOf cs) = cs := by
  intro cs
  induction cs with
  | nil => intro h _; exact absurd rfl h
  | cons s ds ih =>
    intro _ hall
    have hs := hall s (List.mem_cons_self s ds)
    cases ds with
    | nil =>
      have hchunk : chunkOf [s] = s ++ '.' :: [] := by
        unfold chunkOf
        show (s ++ '.' :: ' ' :: joinSep []).dropLast = s ++ '.' :: []
        show (s ++ '.' :: ' ' :: []).dropLast = s ++ '.' :: []
        rw [show s ++ ['.', ' '] = (s ++ ['.']) ++ [' '] by simp]
        rw [List.dropLast_concat]
      rw [hchunk, cleanRaw_append_dot s [] hs.2.2.1, cleanRaw_nil]
      rw [hs.2.1, if_neg (by simp [hs.1])]
      rfl
    | cons s2 ds2 =>
      have hne2 : joinSep (s2 :: ds2) ≠ [] := joinSep_ne_nil _ (by simp)
      have hchunk : chunkOf (s :: s2 :: ds2) = s ++ '.' :: ' ' :: chunkOf (s2 :: ds2) := by
        unfold chunkOf
        show (s ++ '.' :: ' ' :: joinSep (s2 :: ds2)).dropLast = _
        rw [show s ++ '.' :: ' ' :: joinSep (s2 :: ds2)
          = (s ++ ['.', ' ']) ++ joinSep (s2 :: ds2) by simp]
        rw [List.dropLast_append_of_ne_nil _ hne2]
        simp
      rw [hchunk, cleanRaw_append_dot s _ hs.2.2.1, cleanRaw_cons_ws ' ' _ (by decide)]
      rw [ih (by simp) (fun x hx => hall x (List.mem_cons_of_mem s hx))]
      rw [hs.2.1, if_neg (by simp [hs.1])]
      rfl

theorem chunksClean_append (L1 L2 : List (List Char)) :
    chunksClean (L1 ++ L2) = chunksClean L1 ++ chunksClean L2 := by
  induction L1 with
  | nil => rfl
  | cons c L ih =>
    show cleanOf c ++ chunksClean (L ++ L2) = (cleanOf c ++ chunksClean L) ++ chunksClean L2
    rw [ih]
    simp

/-- An emitted chunk contains none of the replaced delimiters, so
`normalizePunct` leaves it unchanged and `cleanOf` agrees with `cleanRaw`. -/
theorem cleanOf_chunkOf (A : List Char → Prop) (cs : List (List Char)) (h : cs ≠ [])
    (hall : ∀ x ∈ cs, GOOD A x) : cleanOf (chunkOf cs) = cs := by
  have hbang : '!' ∉ chunkOf cs := by
    intro hx
    have hx2 := (List.dropLast_prefix (joinSep cs)).subset hx
    rcases joinSep_mem cs '!' hx2 with ⟨s, hs, hmem⟩ | h2
    · exact (hall s hs).2.2.2.1 hmem
    · rcases h2 with h3 | h3 <;> exact absurd h3 (by decide)
  have hq : '?' ∉ chunkOf cs := by
    intro hx
    have hx2 := (List.dropLast_prefix (joinSep cs)).subset hx
    rcases joinSep_mem cs '?' hx2 with ⟨s, hs, hmem⟩ | h2
    · exact (hall s hs).2.2.2.2.1 hmem
    · rcases h2 with h3 | h3 <;> exact absurd h3 (by decide)
  unfold cleanOf sentencePieces
  rw [normalizePunct_eq_self _ hbang hq]
  exact cleanRaw_chunkOf A cs h hall

/-! ### Equations for `chunkLoop` -/

theorem chunkLoop_nil (m : Nat) (current : List Char) (chunks : List (List Char)) :
    chunkLoop m [] current chunks =
      if current = [] then chunks else chunks ++ [pyStrip current] := rfl

theorem chunkLoop_cons (m : Nat) (s : List Char) (rest : List (List Char))
    (current : List Char) (chunks : List (List Char)) :
    chunkLoop m (s :: rest) current chunks =
      if pyStrip s = [] then chunkLoop m rest current chunks
      else if current.length + (pyStrip s).length + 2 ≤ m then
        chunkLoop m rest (current ++ pyStrip s ++ ['.', ' ']) chunks
      else if current = [] then
        chunkLoop m rest (pyStrip s ++ ['.', ' ']) chunks
      else
        chunkLoop m rest (pyStrip s ++ ['.', ' ']) (chunks ++ [pyStrip current]) := rfl

/-! ### The loop invariants -/

/-- The chunk emitted from a live accumulator: it is `chunkOf` of a
non-empty well-formed sentence list, and is within bounds unless the
accumulator holds a single oversized sentence. -/
theorem emit_case (A : List Char → Prop) (m : Nat) (cs : List (List Char))
    (hcs : cs ≠ []) (hGood : ∀ s ∈ cs, GOOD A s)
    (hinv : (joinSep cs).length ≤ m ∨ ∃ s, cs = [s] ∧ m < s.length + 2) :
    ∃ ds, ds ≠ [] ∧ (∀ s ∈ ds, GOOD A s) ∧ pyStrip (joinSep cs) = chunkOf ds ∧
      ((pyStrip (joinSep cs)).length ≤ m ∨ ∃ s, ds = [s] ∧ m < s.length + 2) := by
  obtain ⟨hstrip, q, _, _, hq, hlen⟩ := pyStrip_joinSep A cs hcs hGood
  refine ⟨cs, hcs, hGood, hstrip, ?_⟩
  rcases hinv with h | h
  · left
    rw [hstrip, hq]
    rw [hlen] at h
    simp only [List.length_append, List.length_cons, List.length_nil]
    omega
  · right; exact h

theorem chunkLoop_mem (m : Nat) (A : List Char → Prop) :
    ∀ (S cs chunks : List (List Char)),
    (∀ s ∈ cs, GOOD A s) →
    ((joinSep cs).length ≤ m ∨ ∃ s, cs = [s] ∧ m < s.length + 2) →
    (∀ s ∈ S, pyStrip s = [] ∨ GOOD A (pyStrip s)) →
    ∀ c ∈ chunkLoop m S (joinSep cs) chunks,
      c ∈ chunks ∨ ∃ ds, ds ≠ [] ∧ (∀ s ∈ ds, GOOD A s) ∧ c = chunkOf ds ∧
        (c.length ≤ m ∨ ∃ s, ds = [s] ∧ m < s.length + 2) := by
  intro S
  induction S with
  | nil =>
    intro cs chunks hGood hinv _ c hc
    rw [chunkLoop_nil] at hc
    by_cases hcs : cs = []
    · rw [if_pos (by rw [hcs]; rfl)] at hc
      exact Or.inl hc
    · rw [if_neg (joinSep_ne_nil cs hcs)] at hc
      rcases List.mem_append.mp hc with h | h
      · exact Or.inl h
      · obtain ⟨ds, h1, h2, h3, h4⟩ := emit_case A m cs hcs hGood hinv
        have hce : c = pyStrip (joinSep cs) := by simpa using h
        exact Or.inr ⟨ds, h1, h2, by rw [hce]; exact h3, by rw [hce]; exact h4⟩
  | cons s rest ih =>
    intro cs chunks hGood hinv hS c hc
    rw [chunkLoop_cons] at hc
    have hSrest : ∀ x ∈ rest, pyStrip x = [] ∨ GOOD A (pyStrip x) :=
      fun x hx => hS x (List.mem_cons_of_mem s hx)
    by_cases h1 : pyStrip s = []
    · rw [if_pos h1] at hc
      exact ih cs chunks hGood hinv hSrest c hc
    · rw [if_neg h1] at hc
      have hGs : GOOD A (pyStrip s) := by
        rcases hS s (List.mem_cons_self s rest) with h | h
        · exact absurd h h1
        · exact h
      by_cases h2 : (joinSep cs).length + (pyStrip s).length + 2 ≤ m
      · rw [if_pos h2] at hc
        have heq : joinSep cs ++ pyStrip s ++ ['.', ' '] = joinSep (cs ++ [pyStrip s]) := by
          rw [joinSep_snoc]
        rw [heq] at hc
        refine ih (cs ++ [pyStrip s]) chunks ?_ ?_ hSrest c hc
        · intro x hx
          rcases List.mem_append.mp hx with h | h
          · exact hGood x h
          · rw [List.mem_singleton.mp h]; exact hGs
        · left
          rw [← heq]
          simp only [List.length_append, List.length_cons, List.length_nil]
          omega
      · rw [if_neg h2] at hc
        by_cases h3 : cs = []
        · rw [if_pos (by rw [h3]; rfl)] at hc
          have heq : pyStrip s ++ ['.', ' '] = joinSep [pyStrip s] := by
            show _ = pyStrip s ++ '.' :: ' ' :: joinSep []
            rfl
          rw [heq] at hc
          refine ih [pyStrip s] chunks ?_ ?_ hSrest c hc
          · intro x hx
            rw [List.mem_singleton.mp hx]; exact hGs
          · right
            refine ⟨pyStrip s, rfl, ?_⟩
            rw [h3] at h2
            simp only [joinSep, List.length_nil] at h2
            omega
        · rw [if_neg (joinSep_ne_nil cs h3)] at hc
          have heq : pyStrip s ++ ['.', ' '] = joinSep [pyStrip s] := rfl
          rw [heq] at hc
          have hres := ih [pyStrip s] (chunks ++ [pyStrip (joinSep cs)])
            (fun x hx => by rw [List.mem_singleton.mp hx]; exact hGs)
            (by
              by_cases h4 : (pyStrip s).length + 2 ≤ m
              · left
                show (pyStrip s ++ '.' :: ' ' :: joinSep []).length ≤ m
                simp only [joinSep, List.length_append, List.length_cons, List.length_nil]
                omega
              · right
                exact ⟨pyStrip s, rfl, by omega⟩)
            hSrest c hc
          rcases hres with h | h
          · rcases List.mem_append.mp h with h5 | h5
            · exact Or.inl h5
            · obtain ⟨ds, hh1, hh2, hh3, hh4⟩ := emit_case A m cs h3 hGood hinv
              have hce : c = pyStrip (joinSep cs) := by simpa using h5
              exact Or.inr ⟨ds, hh1, hh2, by rw [hce]; exact hh3, by rw [hce]; exact hh4⟩
          · exact Or.inr h

theorem chunkLoop_cov (m : Nat) (A : List Char → Prop) :
    ∀ (S cs chunks : List (List Char)),
    (∀ s ∈ cs, GOOD A s) →
    (∀ s ∈ S, pyStrip s = [] ∨ GOOD A (pyStrip s)) →
    chunksClean (chunkLoop m S (joinSep cs) chunks) =
      chunksClean chunks ++ cs ++ cleanPieces S := by
  intro S
  induction S with
  | nil =>
    intro cs chunks hGood _
    rw [chunkLoop_nil]
    by_cases hcs : cs = []
    · rw [if_pos (by rw [hcs]; rfl), hcs]
      show chunksClean chunks = chunksClean chunks ++ [] ++ cleanPieces []
      simp [cleanPieces]
    · rw [if_neg (joinSep_ne_nil cs hcs)]
      rw [chunksClean_append]
      obtain ⟨hstrip, _, _, _, _, _⟩ := pyStrip_joinSep A cs hcs hGood
      rw [hstrip]
      show chunksClean chunks ++ (cleanOf (chunkOf cs) ++ chunksClean []) = _
      rw [cleanOf_chunkOf A cs hcs hGood]
      show chunksClean chunks ++ (cs ++ []) = chunksClean chunks ++ cs ++ cleanPieces []
      simp [cleanPieces]
  | cons s rest ih =>
    intro cs chunks hGood hS
    rw [chunkLoop_cons]
    have hSrest : ∀ x ∈ rest, pyStrip x = [] ∨ GOOD A (pyStrip x) :=
      fun x hx => hS x (List.mem_cons_of_mem s hx)
    rw [cleanPieces_cons]
    by_cases h1 : pyStrip s = []
    · rw [if_pos h1, if_pos (by rw [h1]; rfl)]
      exact ih cs chunks hGood hSrest
    · have hGs : GOOD A (pyStrip s) := by
        rcases hS s (List.mem_cons_self s rest) with h | h
        · exact absurd h h1
        · exact h
      have hne : ¬((pyStrip s).isEmpty = true) := by
        rcases hps : pyStrip s with _ | ⟨a, t⟩
        · exact absurd hps h1
        · simp
      rw [if_neg h1, if_neg hne]
      by_cases h2 : (joinSep cs).length + (pyStrip s).length + 2 ≤ m
      · rw [if_pos h2]
        have heq : joinSep cs ++ pyStrip s ++ ['.', ' '] = joinSep (cs ++ [pyStrip s]) := by
          rw [joinSep_snoc]
        rw [heq]
        rw [ih (cs ++ [pyStrip s]) chunks
          (fun x hx => by
            rcases List.mem_append.mp hx with h | h
            · exact hGood x h
            · rw [List.mem_singleton.mp h]; exact hGs)
          hSrest]
        simp
      · rw [if_neg h2]
        by_cases h3 : cs = []
        · rw [if_pos (by rw [h3]; rfl)]
          have heq : pyStrip s ++ ['.', ' '] = joinSep [pyStrip s] := rfl
          rw [heq]
          rw [ih [pyStrip s] chunks
            (fun x hx => by rw [List.mem_singleton.mp hx]; exact hGs) hSrest]
          rw [h3]
          simp
        · rw [if_neg (joinSep_ne_nil cs h3)]
          have heq : pyStrip s ++ ['.', ' '] = joinSep [pyStrip s] := rfl
          rw [heq]
          rw [ih [pyStrip s] (chunks ++ [pyStrip (joinSep cs)])
            (fun x hx => by rw [List.mem_singleton.mp hx]; exact hGs) hSrest]
          rw [chunksClean_append]
          obtain ⟨hstrip, _, _, _, _, _⟩ := pyStrip_joinSep A cs h3 hGood
          rw [hstrip]
          show chunksClean chunks ++ (cleanOf (chunkOf cs) ++ chunksClean []) ++ _ ++ _ = _
          rw [cleanOf_chunkOf A cs h3 hGood]
          simp [chunksClean]

/-! ### Facts about `chunk_text` -/

theorem candidates_good (text : List Char) :
    ∀ s ∈ sentencePieces text, pyStrip s = [] ∨ GOOD (FromText text) (pyStrip s) := by
  intro s hs
  by_cases h : pyStrip s = []
  · exact Or.inl h
  · right
    have hs2 : s ∈ splitDot (normalizePunct text) := hs
    refine ⟨h, pyStrip_idem s, ?_, ?_, ?_, ⟨s, hs, rfl⟩⟩
    · intro hx
      exact (splitDot_mem _ s hs2 '.' (pyStrip_subset s hx)).2 rfl
    · intro hx
      exact normalizePunct_no_bang text (splitDot_mem _ s hs2 '!' (pyStrip_subset s hx)).1
    · intro hx
      exact normalizePunct_no_q text (splitDot_mem _ s hs2 '?' (pyStrip_subset s hx)).1

theorem chunkOf_singleton (s : List Char) : chunkOf [s] = s ++ ['.'] := by
  unfold chunkOf
  show (s ++ '.' :: ' ' :: joinSep []).dropLast = s ++ ['.']
  rw [show s ++ '.' :: ' ' :: joinSep [] = (s ++ ['.']) ++ [' '] by simp [joinSep]]
  exact List.dropLast_concat

/-- The chunks of the splitting path, described by the loop invariant. -/
theorem chunk_text_split_mem (text : List Char) (maxChars : Nat) (c : List Char)
    (hgt : ¬ text.length ≤ maxChars)
    (hne : chunkLoop maxChars (splitDot (normalizePunct text)) [] [] ≠ [])
    (hc : c ∈ chunk_text text maxChars) :
    ∃ ds, ds ≠ [] ∧ (∀ s ∈ ds, GOOD (FromText text) s) ∧ c = chunkOf ds ∧
      (c.length ≤ maxChars ∨ ∃ s, ds = [s] ∧ maxChars < s.length + 2) := by
  unfold chunk_text at hc
  rw [if_neg hgt, if_neg hne] at hc
  have hc2 : c ∈ chunkLoop maxChars (splitDot (normalizePunct text)) (joinSep []) [] := hc
  have hres := chunkLoop_mem maxChars (FromText text) (splitDot (normalizePunct text)) [] []
    (by intro s hs; cases hs)
    (Or.inl (by simp [joinSep]))
    (candidates_good text) c hc2
  rcases hres with h | h
  · cases h
  · exact h

theorem chunk_text_split_clean (text : List Char) (maxChars : Nat) :
    chunksClean (chunkLoop maxChars (splitDot (normalizePunct text)) [] []) = cleanOf text := by
  have hcov := chunkLoop_cov maxChars (FromText text) (splitDot (normalizePunct text)) [] []
    (by intro s hs; cases hs)
    (candidates_good text)
  have heq : chunkLoop maxChars (splitDot (normalizePunct text)) [] []
      = chunkLoop maxChars (splitDot (normalizePunct text)) (joinSep []) [] := rfl
  rw [heq, hcov]
  show chunksClean [] ++ [] ++ cleanPieces (splitDot (normalizePunct text)) = cleanOf text
  simp [chunksClean, cleanOf, sentencePieces]

/-! ### Claim theorems for the segmenter -/

/-- C3: for every text with length ≤ `maxChunkChars`, `Segment` returns
exactly one chunk equal to the input text (original punctuation
preserved exactly, since the chunk is the input itself). -/
theorem chunk_text_identity (text : List Char) (maxChars : Nat)
    (h : text.length ≤ maxChars) : chunk_text text maxChars = [text] := by
  unfold chunk_text
  rw [if_pos h]

/-- Witness for `chunk_text_identity` at the spec's concrete case
`Segment("Hello world.", 200) = ["Hello world."]`. -/
theorem chunk_text_identity_witness :
    "Hello world.".toList.length ≤ 200 ∧
      chunk_text "Hello world.".toList 200 = ["Hello world.".toList] :=
  ⟨by decide, chunk_text_identity "Hello world.".toList 200 (by decide)⟩

/-- C2, counterexample to the claim as stated, at `maxChunkChars = 5`:

* for the text `"aaaaa.b."`, the returned chunk `"aaaaa."` has length 6 > 5
  even though every candidate sentence of the text has (stripped) length
  at most 5 — the synthetic `'.'` appended to the sentence `"aaaaa"`
  pushes the chunk one past the bound;
* for the text of eight spaces, the returned fallback chunk is the whole
  8-character text even though the text has no non-whitespace sentence at
  all.

In both cases an over-long chunk exists while no sentence of the text
exceeds the bound, so the claim's only allowed exception does not apply. -/
theorem chunk_text_bound_cex :
    ((∃ c ∈ chunk_text "aaaaa.b.".toList 5, 5 < c.length) ∧
      (∀ s ∈ sentencePieces "aaaaa.b.".toList, (pyStrip s).length ≤ 5)) ∧
    ((∃ c ∈ chunk_text "        ".toList 5, 5 < c.length) ∧
      (∀ s ∈ sentencePieces "        ".toList, pyStrip s = [])) := by
  constructor
  · constructor
    · exact ⟨"aaaaa.".toList, by decide, by decide⟩
    · decide
  · constructor
    · exact ⟨"        ".toList, by decide, by decide⟩
    · decide

/-- C2, amended: every chunk of `Segment(text, maxChunkChars)` has length
≤ `maxChunkChars`, except (a) a chunk consisting of a single stripped
sentence with the synthetic terminator `'.'` appended, produced when the
sentence's length + 2 exceeds `maxChunkChars` (such a chunk can exceed the
bound by one even when its sentence does not exceed it), and (b) the
whole-text fallback chunk, equal to the input text (returned when the text
itself fits, or when an over-long text has no non-whitespace sentence). -/
theorem chunk_text_bound (text : List Char) (maxChars : Nat) (c : List Char)
    (hc : c ∈ chunk_text text maxChars) :
    c.length ≤ maxChars ∨ c = text ∨
      ∃ p ∈ sentencePieces text, pyStrip p ≠ [] ∧ c = pyStrip p ++ ['.'] ∧
        maxChars < (pyStrip p).length + 2 := by
  by_cases h : text.length ≤ maxChars
  · left
    rw [chunk_text_identity text maxChars h] at hc
    rw [List.mem_singleton.mp hc]
    exact h
  · by_cases h2 : chunkLoop maxChars (splitDot (normalizePunct text)) [] [] = []
    · right; left
      unfold chunk_text at hc
      rw [if_neg h, if_pos h2] at hc
      exact List.mem_singleton.mp hc
    · obtain ⟨ds, hds, hGood, hchunk, hbound⟩ :=
        chunk_text_split_mem text maxChars c h h2 hc
      rcases hbound with hb | ⟨s, rfl, hslen⟩
      · exact Or.inl hb
      · right; right
        have hGs := hGood s (List.mem_cons_self s [])
        obtain ⟨p, hp, hps⟩ := hGs.2.2.2.2.2
        refine ⟨p, hp, ?_, ?_, ?_⟩
        · rw [hps]; exact hGs.1
        · rw [hps, hchunk, chunkOf_singleton]
        · rw [hps]; exact hslen

/-- Witness for `chunk_text_bound`: the single in-bound chunk of a short
text. -/
theorem chunk_text_bound_witness :
    "Hi.".toList ∈ chunk_text "Hi.".toList 200 ∧
      ("Hi.".toList.length ≤ 200 ∨ "Hi.".toList = "Hi.".toList ∨
        ∃ p ∈ sentencePieces "Hi.".toList, pyStrip p ≠ [] ∧
          "Hi.".toList = pyStrip p ++ ['.'] ∧ 200 < (pyStrip p).length + 2) :=
  ⟨by decide, chunk_text_bound "Hi.".toList 200 "Hi.".toList (by decide)⟩

/-- C4: concatenating all chunks while ignoring the synthetic `". "`
separators — formalized as recovering, in order, the stripped
non-whitespace sentences (delimited by `'.'`, `'!'`, `'?'`) of each chunk —
reproduces exactly the non-whitespace sentences of the input, once each
and in the original order. -/
theorem chunk_text_coverage (text : List Char) (maxChars : Nat) :
    chunksClean (chunk_text text maxChars) = cleanOf text := by
  by_cases h : text.length ≤ maxChars
  · rw [chunk_text_identity text maxChars h]
    show cleanOf text ++ chunksClean [] = cleanOf text
    simp [chunksClean]
  · by_cases h2 : chunkLoop maxChars (splitDot (normalizePunct text)) [] [] = []
    · unfold chunk_text
      rw [if_neg h, if_pos h2]
      show cleanOf text ++ chunksClean [] = cleanOf text
      simp [chunksClean]
    · unfold chunk_text
      rw [if_neg h, if_neg h2]
      exact chunk_text_split_clean text maxChars

/-- C10: for every text longer than `maxChunkChars` that has at least one
non-whitespace sentence, every chunk of the splitting path is non-empty,
carries no leading or trailing whitespace, and ends with `'.'`. -/
theorem chunk_text_shape (text : List Char) (maxChars : Nat) (c : List Char)
    (hlen : maxChars < text.length) (hsent : cleanOf text ≠ [])
    (hc : c ∈ chunk_text text maxChars) :
    c ≠ [] ∧ pyStrip c = c ∧ c.getLast? = some '.' := by
  have hgt : ¬ text.length ≤ maxChars := by omega
  have h2 : chunkLoop maxChars (splitDot (normalizePunct text)) [] [] ≠ [] := by
    intro hnil
    have := chunk_text_split_clean text maxChars
    rw [hnil] at this
    exact hsent (by rw [← this]; rfl)
  obtain ⟨ds, hds, hGood, hchunk, _⟩ := chunk_text_split_mem text maxChars c hgt h2 hc
  obtain ⟨_, q, hqne, hqdrop, hq, _⟩ := pyStrip_joinSep (FromText text) ds hds hGood
  rw [hchunk, hq]
  refine ⟨by simp, ?_, List.getLast?_concat q⟩
  exact pyStrip_append_dot q hqne hqdrop

/-- Witness for `chunk_text_shape` at text `"ab.cd."` with bound 3: both
emitted chunks `"ab."` and `"cd."` satisfy the shape invariant; we check
the first. -/
theorem chunk_text_shape_witness :
    3 < "ab.cd.".toList.length ∧ cleanOf "ab.cd.".toList ≠ [] ∧
      "ab.".toList ∈ chunk_text "ab.cd.".toList 3 ∧
      ("ab.".toList ≠ [] ∧ pyStrip "ab.".toList = "ab.".toList ∧
        "ab.".toList.getLast? = some '.') :=
  ⟨by decide, by decide, by decide,
    chunk_text_shape "ab.cd.".toList 3 "ab.".toList (by decide) (by decide) (by decide)⟩

/-! ### Registry lemmas -/

theorem setProfile_cons (n : String) (q : VoiceProfile) (rest : Registry)
    (name : String) (p : VoiceProfile) :
    setProfile ((n, q) :: rest) name p =
      if n = name then (name, p) :: rest else (n, q) :: setProfile rest name p := rfl

theorem eraseProfile_cons (n : String) (q : VoiceProfile) (rest : Registry)
    (name : String) :
    eraseProfile ((n, q) :: rest) name =
      if n = name then rest else (n, q) :: eraseProfile rest name := rfl

theorem getProfile_setProfile_self (reg : Registry) (name : String) (p : VoiceProfile) :
    getProfile (setProfile reg name p) name = some p := by
  induction reg with
  | nil => simp [setProfile, getProfile]
  | cons e rest ih =>
    obtain ⟨n, q⟩ := e
    show getProfile (if n = name then (name, p) :: rest else (n, q) :: setProfile rest name p)
      name = some p
    by_cases h : n = name
    · rw [if_pos h]
      simp [getProfile]
    · rw [if_neg h]
      show (if n = name then some q else getProfile (setProfile rest name p) name) = some p
      rw [if_neg h]
      exact ih

theorem mem_keys_setProfile (reg : Registry) (name : String) (p : VoiceProfile)
    (x : String) (hx : x ∈ (setProfile reg name p).map Prod.fst) :
    x ∈ reg.map Prod.fst ∨ x = name := by
  induction reg with
  | nil =>
    simp [setProfile] at hx
    exact Or.inr hx
  | cons e rest ih =>
    obtain ⟨n, q⟩ := e
    by_cases h : n = name
    · rw [setProfile_cons, if_pos h, List.map_cons] at hx
      rcases List.mem_cons.mp hx with h2 | h2
      · exact Or.inr h2
      · exact Or.inl (by rw [List.map_cons]; exact List.mem_cons_of_mem n h2)
    · rw [setProfile_cons, if_neg h, List.map_cons] at hx
      rcases List.mem_cons.mp hx with h2 | h2
      · exact Or.inl (by rw [List.map_cons, h2]; exact List.mem_cons_self n _)
      · rcases ih h2 with h3 | h3
        · exact Or.inl (by rw [List.map_cons]; exact List.mem_cons_of_mem n h3)
        · exact Or.inr h3

theorem nodup_setProfile (reg : Registry) (name : String) (p : VoiceProfile)
    (h : (reg.map Prod.fst).Nodup) : ((setProfile reg name p).map Prod.fst).Nodup := by
  induction reg with
  | nil => simp [setProfile]
  | cons e rest ih =>
    obtain ⟨n, q⟩ := e
    rw [List.map_cons, List.nodup_cons] at h
    by_cases hn : n = name
    · rw [setProfile_cons, if_pos hn]
      rw [List.map_cons, List.nodup_cons]
      exact ⟨by rw [← hn]; exact h.1, h.2⟩
    · rw [setProfile_cons, if_neg hn]
      rw [List.map_cons, List.nodup_cons]
      refine ⟨?_, ih h.2⟩
      intro hmem
      rcases mem_keys_setProfile rest name p n hmem with h2 | h2
      · exact h.1 h2
      · exact hn h2

theorem getProfile_none_of_not_mem (reg : Registry) (name : String)
    (h : name ∉ reg.map Prod.fst) : getProfile reg name = none := by
  induction reg with
  | nil => rfl
  | cons e rest ih =>
    obtain ⟨n, q⟩ := e
    show (if n = name then some q else getProfile rest name) = none
    rw [if_neg (by intro hn; exact h (by simp [hn]))]
    exact ih (fun hm => h (by simp; right; simpa using hm))

theorem getProfile_erase_self (reg : Registry) (name : String)
    (h : (reg.map Prod.fst).Nodup) : getProfile (eraseProfile reg name) name = none := by
  induction reg with
  | nil => rfl
  | cons e rest ih =>
    obtain ⟨n, q⟩ := e
    rw [List.map_cons, List.nodup_cons] at h
    show getProfile (if n = name then rest else (n, q) :: eraseProfile rest name) name = none
    by_cases hn : n = name
    · rw [if_pos hn]
      exact getProfile_none_of_not_mem rest name (by rw [← hn]; exact h.1)
    · rw [if_neg hn]
      show (if n = name then some q else getProfile (eraseProfile rest name) name) = none
      rw [if_neg hn]
      exact ih h.2

theorem eraseProfile_keys_sublist (reg : Registry) (name : String) :
    ((eraseProfile reg name).map Prod.fst).Sublist (reg.map Prod.fst) := by
  induction reg with
  | nil => simp [eraseProfile]
  | cons e rest ih =>
    obtain ⟨n, q⟩ := e
    rw [eraseProfile_cons]
    by_cases hn : n = name
    · rw [if_pos hn, List.map_cons]
      exact List.sublist_cons_self n (rest.map Prod.fst)
    · rw [if_neg hn, List.map_cons, List.map_cons]
      exact List.Sublist.cons₂ n ih

/-- Success elimination for the clone handler: the extension was accepted,
the registry gained the stored profile, the written waveform is the
normalized one. -/
theorem clone_voice_ok_elim (reg : Registry) (fn vn : String) (rt : Option String)
    (audio : List ℚ) (vid : String) (reg2 : Registry) (norm : List ℚ)
    (h : clone_voice reg fn vn rt audio vid = Except.ok (reg2, norm)) :
    audioExtOk fn = true ∧
      reg2 = setProfile reg vn
        { id := vid, file := "/app/voices/" ++ vid ++ ".wav",
          codes_file := "/app/voices/" ++ vid ++ "_codes.pt",
          reference_text := rt, original_filename := fn } ∧
      norm = normalizeAudio audio := by
  unfold clone_voice clone_voice_body at h
  by_cases hext : audioExtOk fn = true
  · rw [if_pos hext] at h
    simp only [Except.ok.injEq, Prod.mk.injEq] at h
    exact ⟨hext, h.1.symm, h.2.symm⟩
  · rw [if_neg hext] at h
    cases h

theorem delete_voice_ok (reg : Registry) (vn : String) (p : VoiceProfile)
    (h : getProfile reg vn = some p) :
    delete_voice reg vn = Except.ok (eraseProfile reg vn) := by
  unfold delete_voice
  rw [h]

theorem delete_voice_ok_elim (reg : Registry) (vn : String) (reg2 : Registry)
    (h : delete_voice reg vn = Except.ok reg2) : reg2 = eraseProfile reg vn := by
  unfold delete_voice at h
  rcases hg : getProfile reg vn with _ | p
  · rw [hg] at h; cases h
  · rw [hg] at h
    simp only [Except.ok.injEq] at h
    exact h.symm

theorem reachable_nodup (r : Registry) (h : Reachable r) : (r.map Prod.fst).Nodup := by
  induction h with
  | init => simp
  | clone _ hc ih =>
    obtain ⟨_, hreg2, _⟩ := clone_voice_ok_elim _ _ _ _ _ _ _ _ hc
    rw [hreg2]
    exact nodup_setProfile _ _ _ ih
  | delete _ hd ih =>
    rw [delete_voice_ok_elim _ _ _ hd]
    exact ih.sublist (eraseProfile_keys_sublist _ _)

theorem list_voices_filter_length (reg : Registry) (vn : String) :
    ((list_voices reg).filter (fun e => e.name == vn)).length =
      ((reg.map Prod.fst).filter (fun k => k == vn)).length := by
  induction reg with
  | nil => rfl
  | cons e rest ih =>
    show ((list_voices (e :: rest)).filter (fun x => x.name == vn)).length = _
    rw [show list_voices (e :: rest)
      = { name := e.1, id := e.2.id, original_file := e.2.original_filename,
          has_reference_text := e.2.reference_text.isSome } :: list_voices rest from rfl]
    rw [List.map_cons, List.filter_cons, List.filter_cons]
    by_cases h : (e.1 == vn) = true
    · rw [if_pos h, if_pos h]
      simp [ih]
    · rw [if_neg h, if_neg h]
      exact ih

theorem nodup_filter_beq_le_one (l : List String) (h : l.Nodup) (vn : String) :
    (l.filter (fun k => k == vn)).length ≤ 1 := by
  induction l with
  | nil => simp
  | cons k rest ih =>
    rw [List.nodup_cons] at h
    rw [List.filter_cons]
    by_cases hk : (k == vn) = true
    · rw [if_pos hk]
      have hkv : k = vn := by simpa using hk
      have hnone : rest.filter (fun x => x == vn) = [] := by
        rw [List.filter_eq_nil_iff]
        intro a ha
        intro hav
        have hαv : a = vn := by simpa using hav
        exact h.1 (by rw [hkv, ← hαv]; exact ha)
      rw [hnone]
      simp
    · rw [if_neg hk]
      exact ih h.2

theorem filter_list_voices_not_mem (reg : Registry) (vn : String)
    (h : vn ∉ reg.map Prod.fst) :
    (list_voices reg).filter (fun e => e.name == vn) = [] := by
  rw [List.filter_eq_nil_iff]
  intro e he hev
  unfold list_voices at he
  rw [List.mem_map] at he
  obtain ⟨⟨n, q⟩, hmem, hef⟩ := he
  have : e.name = n := by rw [← hef]
  rw [this] at hev
  have hnv : n = vn := by simpa using hev
  exact h (by rw [← hnv]; exact List.mem_map_of_mem Prod.fst hmem)

theorem filter_list_voices_setProfile (reg : Registry) (vn : String) (p : VoiceProfile)
    (h : (reg.map Prod.fst).Nodup) :
    (list_voices (setProfile reg vn p)).filter (fun e => e.name == vn) =
      [{ name := vn, id := p.id, original_file := p.original_filename,
         has_reference_text := p.reference_text.isSome }] := by
  induction reg with
  | nil =>
    show (list_voices [(vn, p)]).filter (fun e => e.name == vn) = _
    simp [list_voices, List.filter_cons]
  | cons e rest ih =>
    obtain ⟨n, q⟩ := e
    rw [List.map_cons, List.nodup_cons] at h
    rw [setProfile_cons]
    by_cases hn : n = vn
    · rw [if_pos hn]
      rw [show list_voices ((vn, p) :: rest)
        = { name := vn, id := p.id, original_file := p.original_filename,
            has_reference_text := p.reference_text.isSome } :: list_voices rest from rfl]
      rw [List.filter_cons, if_pos (by simp)]
      rw [filter_list_voices_not_mem rest vn (by rw [← hn]; exact h.1)]
    · rw [if_neg hn]
      rw [show list_voices ((n, q) :: setProfile rest vn p)
        = { name := n, id := q.id, original_file := q.original_filename,
            has_reference_text := q.reference_text.isSome } :: list_voices (setProfile rest vn p)
        from rfl]
      rw [List.filter_cons, if_neg (by simpa using hn)]
      exact ih h.2

/-! ### Claim theorems for the registry and the clone handler -/

/-- C1 (code evaluation at the failing input): for an uploaded file whose
decoded waveform is all-zero, the clone handler raises no error at all —
there is no zero-peak guard, the peak is 0, the division
`audio / np.max(np.abs(audio))` is performed anyway (in the exact
arithmetic of this embedding `x / 0 = 0`; in the floating-point original it
yields NaN samples without raising), and the voice is registered. -/
theorem clone_zero_peak_no_error :
    peakAmplitude [0, 0, 0] = 0 ∧
      normalizeAudio [0, 0, 0] = [0, 0, 0] ∧
      ∃ r, clone_voice [] "a.wav" "v" none [0, 0, 0] "id0" = Except.ok r ∧
        getProfile r.1 "v" ≠ none := by
  have hpeak : peakAmplitude [0, 0, 0] = 0 := by
    simp [peakAmplitude]
  have hnorm : normalizeAudio [0, 0, 0] = [0, 0, 0] := by
    simp [normalizeAudio, hpeak]
  refine ⟨hpeak, hnorm, ?_⟩
  refine ⟨(setProfile [] "v"
    { id := "id0", file := "/app/voices/" ++ "id0" ++ ".wav",
      codes_file := "/app/voices/" ++ "id0" ++ "_codes.pt",
      reference_text := none, original_filename := "a.wav" },
    normalizeAudio [0, 0, 0]), ?_, ?_⟩
  · unfold clone_voice clone_voice_body
    rw [if_pos (show audioExtOk "a.wav" = true by decide)]
  · simp [setProfile, getProfile]

/-- C9: a clone request whose filename extension is not in
{wav, mp3, flac, ogg, webm} is rejected, but the handler's catch-all
`except Exception` clause intercepts its own `HTTPException(400, ...)`, so
the caller sees HTTP 500 with the 400's message wrapped inside
`"Error cloning voice: ..."` instead of a client error. -/
theorem clone_bad_extension_500 (reg : Registry) (filename voiceName : String)
    (referenceText : Option String) (audio : List ℚ) (voiceId : String)
    (hext : audioExtOk filename = false) :
    clone_voice reg filename voiceName referenceText audio voiceId =
      Except.error
        ⟨500, "Error cloning voice: 400: Only audio files are supported (wav, mp3, flac, ogg, webm)"⟩ := by
  unfold clone_voice clone_voice_body
  rw [if_neg (by rw [hext]; simp)]
  rfl

/-- Witness for `clone_bad_extension_500` at the rejected filename
`"a.txt"`. -/
theorem clone_bad_extension_500_witness :
    audioExtOk "a.txt" = false ∧
      clone_voice [] "a.txt" "v" none [] "i" =
        Except.error
          ⟨500, "Error cloning voice: 400: Only audio files are supported (wav, mp3, flac, ogg, webm)"⟩ :=
  ⟨by decide, clone_bad_extension_500 [] "a.txt" "v" none [] "i" (by decide)⟩

/-- C5: after a successful clone, the stored profile carries the supplied
original filename and reference text (absent if omitted); after deleting
that voice, lookup reports not-found. -/
theorem registry_roundtrip (reg : Registry) (filename voiceName : String)
    (referenceText : Option String) (audio : List ℚ) (voiceId : String)
    (reg2 : Registry) (norm : List ℚ)
    (hnd : (reg.map Prod.fst).Nodup)
    (h : clone_voice reg filename voiceName referenceText audio voiceId =
      Except.ok (reg2, norm)) :
    (∃ p, getProfile reg2 voiceName = some p ∧
      p.original_filename = filename ∧ p.reference_text = referenceText) ∧
    ∃ reg3, delete_voice reg2 voiceName = Except.ok reg3 ∧
      getProfile reg3 voiceName = none := by
  obtain ⟨_, hreg2, _⟩ := clone_voice_ok_elim _ _ _ _ _ _ _ _ h
  have hget : getProfile reg2 voiceName = some
      { id := voiceId, file := "/app/voices/" ++ voiceId ++ ".wav",
        codes_file := "/app/voices/" ++ voiceId ++ "_codes.pt",
        reference_text := referenceText, original_filename := filename } := by
    rw [hreg2]
    exact getProfile_setProfile_self reg voiceName _
  have hnd2 : (reg2.map Prod.fst).Nodup := by
    rw [hreg2]
    exact nodup_setProfile reg voiceName _ hnd
  exact ⟨⟨_, hget, rfl, rfl⟩,
    eraseProfile reg2 voiceName, delete_voice_ok reg2 voiceName _ hget,
    getProfile_erase_self reg2 voiceName hnd2⟩

/-- Witness for `registry_roundtrip`: cloning `"a.wav"` as voice `"v"`
into the empty registry, then deleting it. -/
theorem registry_roundtrip_witness :
    (([] : Registry).map Prod.fst).Nodup ∧
      clone_voice [] "a.wav" "v" none [] "i" =
        Except.ok ([("v", demoProfile "i" "a.wav")], []) ∧
      ((∃ p, getProfile [("v", demoProfile "i" "a.wav")] "v" = some p ∧
          p.original_filename = "a.wav" ∧ p.reference_text = none) ∧
        ∃ reg3, delete_voice [("v", demoProfile "i" "a.wav")] "v" = Except.ok reg3 ∧
          getProfile reg3 "v" = none) :=
  ⟨by simp, by decide,
    registry_roundtrip [] "a.wav" "v" none [] "i" _ [] (by simp) (by decide)⟩

/-- C6: every reachable registry state has at most one live profile per
name; in particular, after two clones under the same name the listing
contains exactly one entry for that name, carrying the second clone's
data. -/
theorem registry_overwrite :
    (∀ r : Registry, Reachable r → ∀ vn : String,
      ((list_voices r).filter (fun e => e.name == vn)).length ≤ 1) ∧
    (∀ (reg : Registry) (fn1 vn : String) (rt1 : Option String) (a1 : List ℚ)
        (id1 : String) (reg1 : Registry) (n1 : List ℚ) (fn2 : String)
        (rt2 : Option String) (a2 : List ℚ) (id2 : String) (reg2 : Registry)
        (n2 : List ℚ),
      Reachable reg →
      clone_voice reg fn1 vn rt1 a1 id1 = Except.ok (reg1, n1) →
      clone_voice reg1 fn2 vn rt2 a2 id2 = Except.ok (reg2, n2) →
      (list_voices reg2).filter (fun e => e.name == vn) =
        [{ name := vn, id := id2, original_file := fn2,
           has_reference_text := rt2.isSome }]) := by
  constructor
  · intro r hr vn
    rw [list_voices_filter_length]
    exact nodup_filter_beq_le_one _ (reachable_nodup r hr) vn
  · intro reg fn1 vn rt1 a1 id1 reg1 n1 fn2 rt2 a2 id2 reg2 n2 hreach h1 h2
    have hreach1 : Reachable reg1 := Reachable.clone hreach h1
    have hnd1 : (reg1.map Prod.fst).Nodup := reachable_nodup reg1 hreach1
    obtain ⟨_, hreg2, _⟩ := clone_voice_ok_elim _ _ _ _ _ _ _ _ h2
    rw [hreg2]
    exact filter_list_voices_setProfile reg1 vn _ hnd1

/-- Witness for `registry_overwrite`: the empty registry is reachable with
at most one `"v"` entry, and two concrete clones under the name `"v"`
leave exactly the second clone's entry. -/
theorem registry_overwrite_witness :
    ((list_voices ([] : Registry)).filter (fun e => e.name == "v")).length ≤ 1 ∧
      (list_voices [("v", demoProfile "i2" "b.wav")]).filter (fun e => e.name == "v") =
        [{ name := "v", id := "i2", original_file := "b.wav",
           has_reference_text := false }] :=
  ⟨registry_overwrite.1 [] Reachable.init "v",
    registry_overwrite.2 [] "a.wav" "v" none [] "i1"
      [("v", demoProfile "i1" "a.wav")] [] "b.wav" none [] "i2"
      [("v", demoProfile "i2" "b.wav")] []
      Reachable.init (by decide) (by decide)⟩

/-! ### Claim theorems for the synthesis orchestrator -/

theorem inferAll_error (g : List Char → Except String (List ℚ)) :
    ∀ L : List (List Char), (∃ c ∈ L, ∃ m, g c = Except.error m) →
    ∃ m, inferAll g L = Except.error m := by
  intro L
  induction L with
  | nil => intro ⟨c, hc, _⟩; cases hc
  | cons c rest ih =>
    intro ⟨c0, hc0, m0, hm0⟩
    show ∃ m, inferAll g (c :: rest) = Except.error m
    unfold inferAll
    rcases hg : g c with m | w
    · exact ⟨m, rfl⟩
    · rcases List.mem_cons.mp hc0 with h1 | h1
      · rw [h1] at hm0
        rw [hm0] at hg
        cases hg
      · obtain ⟨m, hm⟩ := ih ⟨c0, h1, m0, hm0⟩
        rw [hm]
        exact ⟨m, rfl⟩

theorem inferAll_length (g : List Char → Except String (List ℚ)) :
    ∀ (L : List (List Char)) (segs : List (List ℚ)),
    inferAll g L = Except.ok segs → segs.length = L.length := by
  intro L
  induction L with
  | nil =>
    intro segs h
    unfold inferAll at h
    simp only [Except.ok.injEq] at h
    rw [← h]
    rfl
  | cons c rest ih =>
    intro segs h
    unfold inferAll at h
    rcases hg : g c with m | w
    · rw [hg] at h; cases h
    · rw [hg] at h
      rcases hrest : inferAll g rest with m | ws
      · rw [hrest] at h; cases h
      · rw [hrest] at h
        simp only [Except.ok.injEq] at h
        rw [← h]
        simp [ih ws hrest]

/-- C7: if the voice exists and the engine fails on any chunk of the
request's text, the whole request fails with the 500 engine-error
response and no output waveform is produced (the request result carries
no waveform, so chunks generated before the failure are discarded). -/
theorem generate_all_or_nothing
    (infer : VoiceProfile → List Char → Except String (List ℚ))
    (reg : Registry) (text : List Char) (voiceName : String) (p : VoiceProfile)
    (hp : getProfile reg voiceName = some p)
    (hf : ∃ c ∈ chunk_text text 200, ∃ m, infer p c = Except.error m) :
    ∃ e, generate_speech infer reg text voiceName = Except.error e ∧
      e.status = 500 := by
  obtain ⟨m, hm⟩ := inferAll_error (infer p) _ hf
  have hred : generate_speech infer reg text voiceName
      = match inferAll (infer p) (chunk_text text 200) with
        | Except.error m => Except.error ⟨500, "Error generating speech: " ++ m⟩
        | Except.ok segs => Except.ok (concatSegments segs) := by
    unfold generate_speech
    rw [hp]
  rw [hred, hm]
  exact ⟨_, rfl, rfl⟩

/-- Witness for `generate_all_or_nothing`: a one-voice registry and an
engine double that fails on every chunk. -/
theorem generate_all_or_nothing_witness :
    getProfile [("v", demoProfile "i" "a.wav")] "v" = some (demoProfile "i" "a.wav") ∧
      (∃ c ∈ chunk_text "Hi.".toList 200, ∃ m,
        (fun (_ : VoiceProfile) (_ : List Char) =>
          (Except.error "boom" : Except String (List ℚ))) (demoProfile "i" "a.wav") c =
          Except.error m) ∧
      ∃ e, generate_speech
          (fun (_ : VoiceProfile) (_ : List Char) =>
            (Except.error "boom" : Except String (List ℚ)))
          [("v", demoProfile "i" "a.wav")] "Hi.".toList "v" = Except.error e ∧
        e.status = 500 :=
  ⟨by decide, ⟨"Hi.".toList, by decide, "boom", rfl⟩,
    generate_all_or_nothing _ [("v", demoProfile "i" "a.wav")] "Hi.".toList "v"
      (demoProfile "i" "a.wav") (by decide) ⟨"Hi.".toList, by decide, "boom", rfl⟩⟩

/-- C8: for a multi-chunk request on an existing voice where the engine
returns a waveform for every chunk, the response waveform is the literal
sample-for-sample concatenation of the per-chunk waveforms in chunk order
(no cross-fade and no inserted silence). -/
theorem generate_concat_order
    (infer : VoiceProfile → List Char → Except String (List ℚ))
    (reg : Registry) (text : List Char) (voiceName : String) (p : VoiceProfile)
    (segs : List (List ℚ))
    (hp : getProfile reg voiceName = some p)
    (hall : inferAll (infer p) (chunk_text text 200) = Except.ok segs)
    (hmulti : 1 < (chunk_text text 200).length) :
    generate_speech infer reg text voiceName = Except.ok segs.flatten := by
  have hred : generate_speech infer reg text voiceName
      = match inferAll (infer p) (chunk_text text 200) with
        | Except.error m => Except.error ⟨500, "Error generating speech: " ++ m⟩
        | Except.ok segs => Except.ok (concatSegments segs) := by
    unfold generate_speech
    rw [hp]
  rw [hred, hall]
  have hlen : segs.length = (chunk_text text 200).length :=
    inferAll_length (infer p) _ segs hall
  show Except.ok (if 1 < segs.length then segs.flatten else segs.headD [])
    = Except.ok segs.flatten
  rw [if_pos (by omega)]

set_option maxRecDepth 100000 in
/-- Witness for `generate_concat_order`: with an engine double that
returns an empty waveform per chunk, the two-chunk request concatenates
the two segment waveforms. -/
theorem generate_concat_order_witness :
    getProfile [("v", demoProfile "i" "a.wav")] "v" = some (demoProfile "i" "a.wav") ∧
      inferAll ((fun (_ : VoiceProfile) (_ : List Char) =>
          (Except.ok [] : Except String (List ℚ))) (demoProfile "i" "a.wav"))
        (chunk_text twoChunkText 200) = Except.ok [[], []] ∧
      1 < (chunk_text twoChunkText 200).length ∧
      generate_speech
          (fun (_ : VoiceProfile) (_ : List Char) =>
            (Except.ok [] : Except String (List ℚ)))
          [("v", demoProfile "i" "a.wav")] twoChunkText "v" =
        Except.ok ([[], []] : List (List ℚ)).flatten :=
  ⟨by decide, by decide, by decide,
    generate_concat_order _ [("v", demoProfile "i" "a.wav")] twoChunkText "v"
      (demoProfile "i" "a.wav") [[], []] (by decide) (by decide) (by decide)⟩

end VC
